import Mathlib

/-!
Verification of the log-reduction core of the jira-auto-analyze repository
(src/filter.py, class LogFilter) against its natural-language specification.

The embedding works on text represented as lists of characters.  A log is a
List Char; splitting on the newline character mirrors Python str.split('\n'),
joining mirrors '\n'.join.  Machine/float divisions of the source are embedded
as exact arithmetic over ℕ (Python int() of a non-negative real quotient is
its floor); the two fixed regular expressions of filter.py are embedded as
executable character-list matchers with the same semantics on the ASCII
character classes the source exercises.
-/

set_option maxRecDepth 4096

namespace LogCore


/-! ## Characters: case folding, whitespace, digits (ASCII fragment) -/

/-- ASCII lower-casing of a character, the fragment of Python str.lower
used by the case-insensitive regular expressions in filter.py. -/
def lowerChar (c : Char) : Char :=
  if 'A' ≤ c ∧ c ≤ 'Z' then Char.ofNat (c.toNat + 32) else c

/-- Whitespace characters recognised by the regex class \s (ASCII fragment). -/
def wsChar (c : Char) : Bool :=
  c = ' ' || c = '\t' || c = '\n' || c = '\r' || c = '\x0b' || c = '\x0c'

/-- Decimal digit, the regex class \d (ASCII fragment). -/
def digitChar (c : Char) : Bool :=
  '0' ≤ c && c ≤ '9'

/-- Lower-case a whole line (Python: applying the IGNORECASE flag amounts to
matching against the lower-cased line for the literal alternatives used). -/
def lowerL (l : List Char) : List Char := l.map lowerChar

/-! ## Lines: split on newline and join with newline -/

/-- Python content.split('\n').  Always returns at least one (possibly empty)
line; an empty string yields one empty line. -/
def splitNl : List Char → List (List Char)
  | [] => [[]]
  | c :: cs =>
    if c = '\n' then [] :: splitNl cs
    else
      match splitNl cs with
      | l :: ls => (c :: l) :: ls
      | [] => [[c]]

/-- Python '\n'.join(lines). -/
def joinNl : List (List Char) → List Char
  | [] => []
  | [l] => l
  | l :: l' :: ls => l ++ '\n' :: joinNl (l' :: ls)

/-! ## The two fixed regular expressions of extract_error_sections

error_start = (?i)(error|exception|fatal|critical): an unanchored search for
one of four literal words, case-insensitively, i.e. a substring test on the
lower-cased line.

stack_trace = ^\s+at\s+|^\s+File\s+"|^\s+\d+\s+: anchored at the start of the
line.  Since the character after each leading \s+ ('a', 'F', a digit) is not
itself whitespace, a backtracking match exists iff the maximal whitespace run
is nonempty and is followed by the literal part. -/

/-- Substring test: does nd occur contiguously inside the second list?
This is re.search for a literal pattern. -/
def isInfixL (nd : List Char) : List Char → Bool
  | [] => nd.isEmpty
  | c :: cs => nd.isPrefixOf (c :: cs) || isInfixL nd cs

/-- Search for the error_start regex of extract_error_sections. -/
def errorStartTest (l : List Char) : Bool :=
  let low := lowerL l
  isInfixL "error".toList low || isInfixL "exception".toList low ||
    isInfixL "fatal".toList low || isInfixL "critical".toList low

/-- Search for the stack_trace regex of extract_error_sections. -/
def stackTraceTest (l : List Char) : Bool :=
  let ws := l.takeWhile wsChar
  let rest := l.dropWhile wsChar
  !ws.isEmpty &&
    ((match rest with
      | 'a' :: 't' :: c :: _ => wsChar c
      | _ => false) ||
     (match rest with
      | 'F' :: 'i' :: 'l' :: 'e' :: r2 =>
        !(r2.takeWhile wsChar).isEmpty &&
          (match r2.dropWhile wsChar with
           | '"' :: _ => true
           | _ => false)
      | _ => false) ||
     (let ds := rest.takeWhile digitChar
      let r3 := rest.dropWhile digitChar
      !ds.isEmpty &&
        (match r3 with
         | c :: _ => wsChar c
         | _ => false)))

/-- Python line.strip() truthiness: the line has a non-whitespace character. -/
def isNonBlank (l : List Char) : Bool := l.any (fun c => !(wsChar c))

/-! ## Matcher: LogFilter.filter_log (src/filter.py lines 60-145)

A compiled pattern is modelled by the only two things filter_log uses of it:
its source text (pattern.pattern, recorded in match metadata) and its search
outcome on a line (truthiness of pattern.search(line)).  The claims quantify
over arbitrary filter configurations, so the search function is abstract. -/

structure Pat where
  src : List Char
  test : List Char → Bool

structure MatchRec where
  line_number : ℕ
  line : List Char
  pattern : List Char
deriving DecidableEq, Repr

structure FilterResult where
  content : List Char
  matched_lines : ℕ
  total_lines : ℕ
  filtered_lines : ℕ
  truncated : Bool
  matchList : List MatchRec  -- the source dict key is 'matches'
deriving DecidableEq, Repr

/-- The inner loop over self.compiled_patterns with break: the first pattern
that matches the line, if any. -/
def firstMatch (pats : List Pat) (l : List Char) : Option Pat :=
  pats.find? (fun p => p.test l)

/-- The set built by matched_indices.update(range(start, end)) across the
enumerate(lines) loop: start = max(0, idx - context_before) (ℕ subtraction),
end = min(len(lines), idx + context_after + 1). -/
def matchedIdxSet (pats : List Pat) (cb ca : ℕ) (lines : List (List Char)) : Finset ℕ :=
  (List.range lines.length).foldl
    (fun s i =>
      if (firstMatch pats (lines.getD i [])).isSome then
        s ∪ Finset.Ico (i - cb) (min lines.length (i + ca + 1))
      else s) ∅

/-- The matches list built by the same loop: one record per line whose first
matching pattern exists, in line order (break after the first hit). -/
def matchesFull (pats : List Pat) (lines : List (List Char)) : List MatchRec :=
  (List.range lines.length).filterMap
    (fun i => (firstMatch pats (lines.getD i [])).map
      (fun p => ⟨i + 1, lines.getD i [], p.src⟩))

/-- LogFilter.filter_log.  max_lines is Python-optional: None or 0 are falsy,
encoded as (maxLines.getD 0) = 0.  The console warning printed in the
no-match branch is a side effect with no bearing on the returned value. -/
def filterLog (pats : List Pat) (cb ca : ℕ) (content : List Char)
    (maxLines : Option ℕ) : FilterResult :=
  let lines := splitNl content
  let total := lines.length
  let ml := maxLines.getD 0
  if pats.isEmpty then
    if ml ≠ 0 ∧ total > ml then
      ⟨joinNl (lines.take ml), 0, total, (lines.take ml).length, true, []⟩
    else
      ⟨content, 0, total, total, false, []⟩
  else
    let mset := matchedIdxSet pats cb ca lines
    let mrecs := matchesFull pats lines
    if mset = ∅ then
      let sample := min 100 total
      ⟨joinNl (lines.take sample), 0, total, sample, decide (sample < total), []⟩
    else
      let kept := (mset.sort (· ≤ ·)).map (fun i => lines.getD i [])
      if ml ≠ 0 ∧ kept.length > ml then
        ⟨joinNl (kept.take ml), mrecs.length, total, (kept.take ml).length, true,
          mrecs.take 20⟩
      else
        ⟨joinNl kept, mrecs.length, total, kept.length,
          decide (mset.card < total), mrecs.take 20⟩

/-! ## Error-Section Extractor: extract_error_sections (src/filter.py 147-203) -/

/-- The mutable current_section dict: start_line (1-based), the accumulated
lines, and end_line which is only present once set ('end_line' key absent
until a blank line or end of input closes the section). -/
structure RawSection where
  start_line : ℕ
  lns : List (List Char)
  endL : Option ℕ
deriving DecidableEq, Repr

/-- Python section appending on a new error marker: the open section, if any,
is appended without an end_line. -/
def exAppend (cur : Option RawSection) (acc : List RawSection) : List RawSection :=
  match cur with
  | some c => acc ++ [c]
  | none => acc

/-- The for idx, line in enumerate(lines) loop of extract_error_sections.
idx is the 0-based index of the head of the remaining lines; at end of input
idx equals the total line count, which is what Python assigns to end_line
for a section still open there. -/
def exLoop : List (List Char) → ℕ → Option RawSection → List RawSection → List RawSection
  | [], idx, cur, acc =>
    (match cur with
     | some c => acc ++ [{ c with endL := some idx }]
     | none => acc)
  | l :: rest, idx, cur, acc =>
    if errorStartTest l then
      exLoop rest (idx + 1) (some ⟨idx + 1, [l], none⟩) (exAppend cur acc)
    else
      match cur with
      | some c =>
        if stackTraceTest l then
          exLoop rest (idx + 1) (some { c with lns := c.lns ++ [l] }) acc
        else if isNonBlank l then
          exLoop rest (idx + 1) (some { c with lns := c.lns ++ [l] }) acc
        else
          exLoop rest (idx + 1) none (acc ++ [{ c with endL := some idx }])
      | none => exLoop rest (idx + 1) none acc

/-- The formatted section dicts returned by extract_error_sections:
end_line defaults to start_line when the raw section was closed without one
(section.get('end_line', section['start_line'])). -/
structure ErrorSection where
  start_line : ℕ
  end_line : ℕ
  content : List Char
  line_count : ℕ
deriving DecidableEq, Repr

def formatSection (s : RawSection) : ErrorSection :=
  ⟨s.start_line, s.endL.getD s.start_line, joinNl s.lns, s.lns.length⟩

def extractErrorSections (content : List Char) : List ErrorSection :=
  (exLoop (splitNl content) 0 none []).map formatSection

/-! ## Budgeter: estimate_tokens and optimize_for_token_limit
(src/filter.py 205-301) -/

/-- estimate_tokens: len(content) // 4. -/
def estimateTokens (content : List Char) : ℕ := content.length / 4

/-- The literal separator joined between extracted error sections. -/
def sepSection : List Char := "\n\n--- Error Section ---\n\n".toList

/-- The f-string marker inserted between head and tail. -/
def truncMarker (r : ℕ) : List Char :=
  "\n\n... [TRUNCATED: ".toList ++ Nat.toDigits 10 r ++ " lines] ...\n\n".toList

/-- Python lines[-k:]: the last k elements — except that -0 is 0, so k = 0
yields the whole list, not the empty one. -/
def pyTail (l : List (List Char)) (k : ℕ) : List (List Char) :=
  if k = 0 then l else l.drop (l.length - k)

/-- target_lines = int(target_chars / chars_per_line) with
chars_per_line = len(content) / len(lines) (a float; 0 if no lines, which
cannot happen since split always yields a line) and target_chars =
max_tokens * 4; the 100 fallback applies when chars_per_line is 0, i.e.
exactly when the content is empty.  Over exact arithmetic
int((m*4) / (len/n)) is the floor division (m * 4 * n) / len. -/
def targetLines (content : List Char) (maxTokens : ℕ) : ℕ :=
  if 0 < content.length then
    maxTokens * 4 * (splitNl content).length / content.length
  else 100

structure OptResult where
  content : List Char
  original_tokens : ℕ
  final_tokens : ℕ
  optimized : Bool
  strategy : Option String
  sections_extracted : Option ℕ
  lines_kept : Option ℕ
  lines_removed : Option ℕ
deriving DecidableEq, Repr

/-- The strategy == 'smart' block: extract error sections; if any, join them
with the literal separator and return that if it fits the budget; otherwise
fall through (None). -/
def errAttempt (content : List Char) (maxTokens cur : ℕ) : Option OptResult :=
  let secs := extractErrorSections content
  if secs.isEmpty then none
  else
    let ec := List.intercalate sepSection (secs.map (·.content))
    let et := estimateTokens ec
    if et ≤ maxTokens then
      some ⟨ec, cur, et, true, some "error_extraction", some secs.length, none, none⟩
    else none

/-- The head/tail fallback of optimize_for_token_limit (lines 266-301). -/
def headTailResult (content : List Char) (maxTokens cur : ℕ) : OptResult :=
  let lines := splitNl content
  let n := lines.length
  let t := targetLines content maxTokens
  let headL := t / 2
  let tailL := t / 2
  if n > headL + tailL then
    let tc := joinNl (lines.take headL) ++ truncMarker (n - headL - tailL) ++
      joinNl (pyTail lines tailL)
    ⟨tc, cur, estimateTokens tc, true, some "head_tail", none,
      some (headL + tailL), some (n - headL - tailL)⟩
  else
    let tc := joinNl (lines.take t)
    ⟨tc, cur, estimateTokens tc, true, some "head_only", none, some (min t n), none⟩

/-- optimize_for_token_limit. -/
def optimize (content : List Char) (maxTokens : ℕ) (strategy : String) : OptResult :=
  let cur := estimateTokens content
  if cur ≤ maxTokens then
    ⟨content, cur, cur, false, none, none, none, none⟩
  else
    match (if strategy = "smart" then errAttempt content maxTokens cur else none) with
    | some r => r
    | none => headTailResult content maxTokens cur

/-! ### Checked-division variant for the divide-by-zero claim

Every division the source performs in the head/tail computation is replaced
by one that faults (Except.error) on a zero divisor, exactly where Python
would raise ZeroDivisionError:
  (a) chars_per_line = len(content) / len(lines) if lines else 0 — divisor
      len(lines), guarded by the lines-nonempty test;
  (b) target_lines = int(target_chars / chars_per_line) if
      chars_per_line > 0 else 100 — divisor the exact fraction
      len(content)/len(lines), which is zero iff its numerator is. -/
def targetLinesChk (content : List Char) (maxTokens : ℕ) : Except String ℕ := do
  let lines := splitNl content
  -- (a): the pair holds the exact value of the float as numerator/denominator
  let cpl : ℕ × ℕ ←
    if lines.isEmpty then pure (0, 1)
    else if lines.length = 0 then Except.error "ZeroDivisionError"
    else pure (content.length, lines.length)
  -- chars_per_line > 0 iff the numerator is positive (the denominator is)
  if 0 < cpl.1 then
    -- (b): int((maxTokens*4) / (cpl.1/cpl.2)) = maxTokens*4*cpl.2 / cpl.1
    if cpl.1 = 0 then Except.error "ZeroDivisionError"
    else pure (maxTokens * 4 * cpl.2 / cpl.1)
  else pure 100

def headTailResultChk (content : List Char) (maxTokens cur : ℕ) : Except String OptResult := do
  let lines := splitNl content
  let n := lines.length
  let t ← targetLinesChk content maxTokens
  let headL := t / 2
  let tailL := t / 2
  if n > headL + tailL then
    let tc := joinNl (lines.take headL) ++ truncMarker (n - headL - tailL) ++
      joinNl (pyTail lines tailL)
    pure ⟨tc, cur, estimateTokens tc, true, some "head_tail", none,
      some (headL + tailL), some (n - headL - tailL)⟩
  else
    let tc := joinNl (lines.take t)
    pure ⟨tc, cur, estimateTokens tc, true, some "head_only", none, some (min t n), none⟩

def optimizeChk (content : List Char) (maxTokens : ℕ) (strategy : String) :
    Except String OptResult :=
  let cur := estimateTokens content
  if cur ≤ maxTokens then
    Except.ok ⟨content, cur, cur, false, none, none, none, none⟩
  else
    match (if strategy = "smart" then errAttempt content maxTokens cur else none) with
    | some r => Except.ok r
    | none => headTailResultChk content maxTokens cur

/-- The kept-line indices as the specification words them: the union, over
all line indices j where some pattern matches, of the inclusive windows
[j - context_before, j + context_after] clamped to the file bounds, listed
in ascending order without duplication.  (For an index i in range the upper
clamp i ≤ total - 1 is automatic.) -/
def specKeptIndices (pats : List Pat) (cb ca : ℕ) (lines : List (List Char)) : List ℕ :=
  (List.range lines.length).filter (fun i =>
    (List.range lines.length).any (fun j =>
      pats.any (fun p => p.test (lines.getD j [])) &&
        decide (j - cb ≤ i) && decide (i ≤ j + ca)))

/-! ## Construction of the filter: LogFilter.__init__ (src/filter.py 25-58)

re.compile is external to the repository; it is abstracted as a function rc
yielding a matcher for well-formed patterns and nothing for malformed ones
(re.error carries the offending pattern string in its pattern attribute,
modelled by the Except error value).  re.escape always yields a well-formed
pattern, so keyword compilation cannot fail; a compiled escaped keyword
matches a line iff the keyword occurs literally, case-folded under
IGNORECASE when case_sensitive is false. -/

def kwPat (caseSensitive : Bool) (k : String) : Pat :=
  ⟨k.toList, fun l => if caseSensitive then isInfixL k.toList l
    else isInfixL (lowerL k.toList) (lowerL l)⟩

/-- The list comprehension [re.compile(pattern, flags) for pattern in
self.patterns]: compiles left to right and raises at the first malformed
pattern. -/
def compilePats (rc : String → Option (List Char → Bool)) :
    List String → Except String (List Pat)
  | [] => Except.ok []
  | p :: ps =>
    match rc p with
    | some t => (compilePats rc ps).map (fun rest => ⟨p.toList, t⟩ :: rest)
    | none => Except.error p

/-- LogFilter.__init__: compile each configured regex pattern in order, then
append the keyword patterns. -/
def initFilter (rc : String → Option (List Char → Bool))
    (keywords patterns : List String) (caseSensitive : Bool) :
    Except String (List Pat) := do
  let ps ← compilePats rc patterns
  Except.ok (ps ++ keywords.map (kwPat caseSensitive))

/-- Invariant of the open current_section at loop index idx: it was opened at
a marker line, is still unclosed, and holds exactly the original lines from
start_line up to (excluding) idx. -/
def CurGood (lines : List (List Char)) (idx : ℕ) (c : RawSection) : Prop :=
  1 ≤ c.start_line ∧ c.start_line ≤ idx ∧ idx ≤ lines.length ∧ c.endL = none ∧
  c.lns = (lines.drop (c.start_line - 1)).take (idx - (c.start_line - 1)) ∧
  c.lns ≠ []

/-- Invariant of an emitted raw section: its lines are consecutive original
lines; when it carries no end_line the line right after it exists and is an
error marker (marker closing); when it carries end_line = e, e is the 1-based
number of its last line and the line at index e (if any) is not a marker
(blank or end-of-input closing). -/
def SecGood (lines : List (List Char)) (s : RawSection) : Prop :=
  1 ≤ s.start_line ∧ s.lns ≠ [] ∧
  s.start_line - 1 + s.lns.length ≤ lines.length ∧
  (s.endL = none →
    s.start_line - 1 + s.lns.length < lines.length ∧
    errorStartTest (lines.getD (s.start_line - 1 + s.lns.length) []) = true) ∧
  (∀ e, s.endL = some e →
    e = s.start_line - 1 + s.lns.length ∧
    (e < lines.length → errorStartTest (lines.getD e []) = false))

theorem splitNl_ne_nil (c : List Char) : splitNl c ≠ [] := by
  cases c with
  | nil => simp [splitNl]
  | cons c cs =>
    simp only [splitNl]
    split
    · simp
    · cases h : splitNl cs with
      | nil => simp
      | cons l ls => simp

theorem splitNl_length_pos (c : List Char) : 0 < (splitNl c).length :=
  List.length_pos.mpr (splitNl_ne_nil c)

/-- '\n'.join inverts split('\n'): the split is lossless. -/
theorem joinNl_splitNl (c : List Char) : joinNl (splitNl c) = c := by
  induction c with
  | nil => rfl
  | cons c cs ih =>
    simp only [splitNl]
    split
    · rename_i hc
      subst hc
      cases h : splitNl cs with
      | nil => exact absurd h (splitNl_ne_nil cs)
      | cons l ls =>
        rw [h] at ih
        simp [joinNl, ih]
    · cases h : splitNl cs with
      | nil => exact absurd h (splitNl_ne_nil cs)
      | cons l ls =>
        rw [h] at ih
        cases ls with
        | nil => simpa [joinNl] using congrArg (c :: ·) ih
        | cons l' ls' => simpa [joinNl] using congrArg (c :: ·) ih

theorem joinNl_cons_cons (l l' : List Char) (ls : List (List Char)) :
    joinNl (l :: l' :: ls) = l ++ '\n' :: joinNl (l' :: ls) := rfl

/-- Length of a joined list of lines: sum of the line lengths plus one
separator between consecutive lines. -/
theorem joinNl_length_le_of_take (L : List (List Char)) (k : ℕ) :
    (joinNl (L.take k)).length ≤ (joinNl L).length := by
  induction L generalizing k with
  | nil => simp
  | cons a t ih =>
    cases k with
    | zero => simp [joinNl]
    | succ k =>
      cases t with
      | nil =>
        cases k <;> simp [joinNl]
      | cons b t' =>
        cases k with
        | zero => simp [joinNl, joinNl_cons_cons]
        | succ k' =>
          have h := ih (k' + 1)
          rw [List.take_succ_cons] at h
          simp only [List.take_succ_cons, joinNl_cons_cons, List.length_append,
            List.length_cons]
          omega

/-- A join of at least two lines is nonempty (it contains the separator). -/
theorem joinNl_ne_nil_of_two (a b : List Char) (t : List (List Char)) :
    joinNl (a :: b :: t) ≠ [] := by
  simp [joinNl_cons_cons]

theorem lowerChar_of_ws (c : Char) (h : wsChar c = true) : lowerChar c = c := by
  simp only [wsChar, Bool.or_eq_true, decide_eq_true_eq] at h
  rcases h with ((((h | h) | h) | h) | h) | h <;> subst h <;> decide

/-- The first character of each error keyword is not whitespace, so a line
matching error_start cannot be blank. -/
theorem isNonBlank_of_errorStart (l : List Char) (h : errorStartTest l = true) :
    isNonBlank l = true := by
  by_contra hb
  have hall : ∀ c ∈ l, wsChar c = true := by
    intro c hc
    by_contra hw
    exact hb (List.any_eq_true.mpr ⟨c, hc, by simp [hw]⟩)
  -- every character of the lower-cased line is whitespace
  have hlow : ∀ c ∈ lowerL l, wsChar c = true := by
    intro c hc
    obtain ⟨c', hc', rfl⟩ := List.mem_map.mp hc
    rw [lowerChar_of_ws c' (hall c' hc')]
    exact hall c' hc'
  -- a successful infix search for a word starting with a letter yields a
  -- letter among the characters of the lower-cased line
  have hmem : ∀ (a : Char) (nd hay : List Char), isInfixL (a :: nd) hay = true → a ∈ hay := by
    intro a nd hay
    induction hay with
    | nil => simp [isInfixL, List.isEmpty]
    | cons c cs ih =>
      simp only [isInfixL, Bool.or_eq_true]
      rintro (hp | hi)
      · have := List.isPrefixOf_iff_prefix.mp hp
        have : a = c := by
          cases this with
          | intro t ht => exact (List.cons_eq_cons.mp ht.symm).1.symm
        simp [this]
      · exact List.mem_cons_of_mem _ (ih hi)
  simp only [errorStartTest, Bool.or_eq_true] at h
  rcases h with ((h | h) | h) | h
  · exact absurd (hlow _ (hmem 'e' _ _ h)) (by decide)
  · exact absurd (hlow _ (hmem 'e' _ _ h)) (by decide)
  · exact absurd (hlow _ (hmem 'f' _ _ h)) (by decide)
  · exact absurd (hlow _ (hmem 'c' _ _ h)) (by decide)

/-- A blank line does not match error_start. -/
theorem errorStart_of_blank (l : List Char) (h : isNonBlank l = false) :
    errorStartTest l = false := by
  by_contra hc
  rw [isNonBlank_of_errorStart l (by simpa using hc)] at h
  exact absurd h (by simp)

/-! ### Basic facts about the matched-index set -/

theorem mem_foldl_union (lines : List (List Char)) (pats : List Pat) (cb ca : ℕ)
    (L : List ℕ) (s₀ : Finset ℕ) (x : ℕ) :
    (x ∈ L.foldl
      (fun s i =>
        if (firstMatch pats (lines.getD i [])).isSome then
          s ∪ Finset.Ico (i - cb) (min lines.length (i + ca + 1))
        else s) s₀) ↔
      x ∈ s₀ ∨ ∃ j ∈ L, (firstMatch pats (lines.getD j [])).isSome ∧
        x ∈ Finset.Ico (j - cb) (min lines.length (j + ca + 1)) := by
  induction L generalizing s₀ with
  | nil => simp
  | cons a t ih =>
    simp only [List.foldl_cons, ih, List.mem_cons]
    by_cases h : (firstMatch pats (lines.getD a [])).isSome
    · simp only [h, if_pos]
      constructor
      · rintro (hx | hx)
        · rcases Finset.mem_union.mp hx with hx | hx
          · exact Or.inl hx
          · exact Or.inr ⟨a, Or.inl rfl, h, hx⟩
        · obtain ⟨j, hj, hj2, hj3⟩ := hx
          exact Or.inr ⟨j, Or.inr hj, hj2, hj3⟩
      · rintro (hx | ⟨j, (rfl | hj), hj2, hj3⟩)
        · exact Or.inl (Finset.mem_union_left _ hx)
        · exact Or.inl (Finset.mem_union_right _ hj3)
        · exact Or.inr ⟨j, hj, hj2, hj3⟩
    · simp only [h, if_neg, Bool.false_eq_true, not_false_iff]
      constructor
      · rintro (hx | ⟨j, hj, hj2, hj3⟩)
        · exact Or.inl hx
        · exact Or.inr ⟨j, Or.inr hj, hj2, hj3⟩
      · rintro (hx | ⟨j, (rfl | hj), hj2, hj3⟩)
        · exact Or.inl hx
        · exact absurd hj2 h
        · exact Or.inr ⟨j, hj, hj2, hj3⟩

theorem mem_matchedIdxSet (pats : List Pat) (cb ca : ℕ) (lines : List (List Char)) (x : ℕ) :
    x ∈ matchedIdxSet pats cb ca lines ↔
      ∃ j < lines.length, (firstMatch pats (lines.getD j [])).isSome ∧
        j - cb ≤ x ∧ x < min lines.length (j + ca + 1) := by
  rw [matchedIdxSet, mem_foldl_union]
  simp only [Finset.not_mem_empty, false_or, List.mem_range, Finset.mem_Ico]

theorem matchedIdxSet_subset_range (pats : List Pat) (cb ca : ℕ)
    (lines : List (List Char)) :
    matchedIdxSet pats cb ca lines ⊆ Finset.range lines.length := by
  intro x hx
  obtain ⟨j, _, _, _, h4⟩ := (mem_matchedIdxSet pats cb ca lines x).mp hx
  exact Finset.mem_range.mpr (lt_of_lt_of_le h4 (min_le_left _ _))

/-- A line that matches puts its own index in the set (the window always
contains the matching line itself). -/
theorem self_mem_matchedIdxSet (pats : List Pat) (cb ca : ℕ)
    (lines : List (List Char)) (j : ℕ) (hj : j < lines.length)
    (hm : (firstMatch pats (lines.getD j [])).isSome) :
    j ∈ matchedIdxSet pats cb ca lines := by
  rw [mem_matchedIdxSet]
  exact ⟨j, hj, hm, Nat.sub_le _ _, lt_min hj (Nat.lt_succ_of_le (Nat.le_add_right _ _))⟩

/-- sorted(matched_indices) enumerated as a filter of the index range:
a set of indices below n, listed in ascending order, is exactly the
sublist of range(n) consisting of its members. -/
theorem sort_eq_filter_range (S : Finset ℕ) (n : ℕ) (h : ∀ i ∈ S, i < n) :
    S.sort (· ≤ ·) = (List.range n).filter (fun i => decide (i ∈ S)) := by
  have hperm : (S.sort (· ≤ ·)).Perm ((List.range n).filter (fun i => decide (i ∈ S))) := by
    apply (List.perm_ext_iff_of_nodup (Finset.sort_nodup _ S)
      ((List.nodup_range n).filter _)).mpr
    intro a
    rw [Finset.mem_sort, List.mem_filter, List.mem_range]
    simp only [decide_eq_true_eq]
    exact ⟨fun ha => ⟨h a ha, ha⟩, fun ha => ha.2⟩
  exact List.eq_of_perm_of_sorted hperm (Finset.sort_sorted _ S)
    (List.Pairwise.imp le_of_lt ((List.pairwise_lt_range n).filter _))

/-! ### Facts about the Budgeter branches -/

theorem errAttempt_some_spec (content : List Char) (m cur : ℕ) (r : OptResult)
    (h : errAttempt content m cur = some r) :
    r.content.length / 4 ≤ m ∧ r.strategy = some "error_extraction" ∧
      r.final_tokens = r.content.length / 4 ∧ r.original_tokens = cur ∧
      r.optimized = true := by
  simp only [errAttempt] at h
  split at h
  · exact absurd h (by simp)
  · split at h
    · rename_i het
      rw [Option.some_inj] at h
      subst h
      exact ⟨het, rfl, rfl, rfl, rfl⟩
    · exact absurd h (by simp)

theorem headTailResult_not_head_tail (content : List Char) (m cur : ℕ)
    (h : (headTailResult content m cur).strategy ≠ some "head_tail") :
    headTailResult content m cur =
      ⟨joinNl ((splitNl content).take (targetLines content m)), cur,
        estimateTokens (joinNl ((splitNl content).take (targetLines content m))),
        true, some "head_only", none,
        some (min (targetLines content m) (splitNl content).length), none⟩ := by
  by_cases hb : (splitNl content).length >
      targetLines content m / 2 + targetLines content m / 2
  · exact absurd (by simp [headTailResult, hb]) h
  · simp [headTailResult, hb]

/-- In the error-extraction and head-only branches the returned content is
never longer than the input; only the head_tail branch can grow it (by the
inserted truncation marker). -/
theorem optimize_shrinks (content : List Char) (m : ℕ) (s : String)
    (h1 : (optimize content m s).optimized = true)
    (h2 : (optimize content m s).strategy ≠ some "head_tail") :
    (optimize content m s).content.length ≤ content.length := by
  by_cases hc : estimateTokens content ≤ m
  · simp [optimize, hc] at h1
  · cases hE : (if s = "smart" then errAttempt content m (estimateTokens content) else none) with
    | some r =>
      have hopt : optimize content m s = r := by
        simp only [optimize]
        rw [if_neg hc, hE]
      rw [hopt] at h1 h2 ⊢
      obtain ⟨hr1, _, _, _, _⟩ := errAttempt_some_spec content m (estimateTokens content) r
        (by by_cases hs : s = "smart"
            · simpa [hs] using hE
            · simp [hs] at hE)
      simp only [estimateTokens] at hc
      omega
    | none =>
      have hopt : optimize content m s = headTailResult content m (estimateTokens content) := by
        simp only [optimize]
        rw [if_neg hc, hE]
      rw [hopt] at h1 h2 ⊢
      rw [headTailResult_not_head_tail content m (estimateTokens content) h2]
      calc (joinNl ((splitNl content).take (targetLines content m))).length
      _ ≤ (joinNl (splitNl content)).length := joinNl_length_le_of_take _ _
      _ = content.length := by rw [joinNl_splitNl]

/-- C1, counterexample: on 50 newline characters with max_tokens = 10 the
smart strategy falls to head_tail, whose truncation marker outweighs the
removed (empty) lines: original_tokens = 12 but final_tokens = 17 with
optimized = true. -/
theorem c1_head_tail_grows_tokens :
    (optimize (List.replicate 50 '\n') 10 "smart").optimized = true ∧
    (optimize (List.replicate 50 '\n') 10 "smart").original_tokens <
      (optimize (List.replicate 50 '\n') 10 "smart").final_tokens := by
  constructor
  · decide
  · decide

/-- C1, amended: whenever optimize_for_token_limit returns optimized = true
with a strategy other than head_tail, final_tokens ≤ original_tokens.
(The head_tail branch can exceed original_tokens because of the inserted
truncation marker, as the counterexample shows.) -/
theorem c1_final_le_original_outside_head_tail (content : List Char) (m : ℕ) (s : String)
    (h1 : (optimize content m s).optimized = true)
    (h2 : (optimize content m s).strategy ≠ some "head_tail") :
    (optimize content m s).final_tokens ≤ (optimize content m s).original_tokens := by
  by_cases hc : estimateTokens content ≤ m
  · simp [optimize, hc] at h1
  · cases hE : (if s = "smart" then errAttempt content m (estimateTokens content) else none) with
    | some r =>
      have hopt : optimize content m s = r := by
        simp only [optimize]
        rw [if_neg hc, hE]
      rw [hopt] at h1 h2 ⊢
      obtain ⟨hr1, _, hr3, hr4, _⟩ := errAttempt_some_spec content m (estimateTokens content) r
        (by by_cases hs : s = "smart"
            · simpa [hs] using hE
            · simp [hs] at hE)
      rw [hr3, hr4]
      simp only [estimateTokens] at hc ⊢
      omega
    | none =>
      have hopt : optimize content m s = headTailResult content m (estimateTokens content) := by
        simp only [optimize]
        rw [if_neg hc, hE]
      rw [hopt] at h1 h2 ⊢
      rw [headTailResult_not_head_tail content m (estimateTokens content) h2]
      simp only [estimateTokens]
      have hlen : (joinNl ((splitNl content).take (targetLines content m))).length ≤
          content.length := by
        calc (joinNl ((splitNl content).take (targetLines content m))).length
        _ ≤ (joinNl (splitNl content)).length := joinNl_length_le_of_take _ _
        _ = content.length := by rw [joinNl_splitNl]
      exact Nat.div_le_div_right hlen

/-- Witness for the amended C1 at a concrete input that optimizes through
error extraction. -/
theorem c1_final_le_original_outside_head_tail_witness :
    (optimize ("error: X\n\n".toList ++ List.replicate 40 'z') 3 "smart").final_tokens ≤
      (optimize ("error: X\n\n".toList ++ List.replicate 40 'z') 3 "smart").original_tokens :=
  c1_final_le_original_outside_head_tail ("error: X\n\n".toList ++ List.replicate 40 'z') 3
    "smart" (by decide) (by decide)

/-- C2, counterexample: a 46-character input whose head_tail reduction is
itself still over budget; re-running optimize on that output with the same
max_tokens = 10 returns optimized = true with strictly longer content
(46 → 48 characters), because the second head_tail pass removes only the
old one-line truncation marker and inserts a fresh marker plus two extra
newlines. -/
theorem c2_rerun_grows_content :
    (optimize (optimize ("AAAAAAA\n".toList ++ List.replicate 30 'x' ++ "\nBBBBBBB".toList)
        10 "smart").content 10 "smart").optimized = true ∧
    (optimize ("AAAAAAA\n".toList ++ List.replicate 30 'x' ++ "\nBBBBBBB".toList)
        10 "smart").content.length <
      (optimize (optimize ("AAAAAAA\n".toList ++ List.replicate 30 'x' ++ "\nBBBBBBB".toList)
          10 "smart").content 10 "smart").content.length := by
  constructor
  · decide
  · decide

/-- C2, amended: re-running optimize on its own output with the same
max_tokens either does not optimize, or optimizes through head_tail (which
may grow the content by the inserted truncation marker, as the
counterexample shows), or returns content no longer than its input. -/
theorem c2_rerun_no_growth_unless_head_tail (content : List Char) (m : ℕ) :
    (optimize (optimize content m "smart").content m "smart").optimized = false ∨
    (optimize (optimize content m "smart").content m "smart").strategy = some "head_tail" ∨
    (optimize (optimize content m "smart").content m "smart").content.length ≤
      (optimize content m "smart").content.length := by
  by_cases h1 : (optimize (optimize content m "smart").content m "smart").optimized = false
  · exact Or.inl h1
  · by_cases h2 : (optimize (optimize content m "smart").content m "smart").strategy =
        some "head_tail"
    · exact Or.inr (Or.inl h2)
    · exact Or.inr (Or.inr (optimize_shrinks _ m "smart"
        (by revert h1; cases (optimize (optimize content m "smart").content m "smart").optimized <;> simp) h2))

/-! ### The checked-division Budgeter never faults -/

theorem targetLinesChk_ok (content : List Char) (m : ℕ) :
    targetLinesChk content m = Except.ok (targetLines content m) := by
  have hne : (splitNl content).isEmpty = false := by
    cases h : splitNl content with
    | nil => exact absurd h (splitNl_ne_nil content)
    | cons a t => rfl
  have hlen : (splitNl content).length ≠ 0 :=
    Nat.pos_iff_ne_zero.mp (splitNl_length_pos content)
  by_cases hc : 0 < content.length
  · have hz : content.length ≠ 0 := Nat.pos_iff_ne_zero.mp hc
    simp [targetLinesChk, targetLines, hne, hlen, hc, hz, Bind.bind, Except.bind,
      pure, Except.pure]
  · simp [targetLinesChk, targetLines, hne, hlen, hc, Bind.bind, Except.bind,
      pure, Except.pure]

theorem headTailResultChk_ok (content : List Char) (m cur : ℕ) :
    headTailResultChk content m cur = Except.ok (headTailResult content m cur) := by
  simp only [headTailResultChk, headTailResult, targetLinesChk_ok, Bind.bind,
    Except.bind, pure, Except.pure]
  split <;> rfl

/-- C8: with the source's guards in place, no division in
optimize_for_token_limit can fault: the checked-division variant, which
raises exactly where Python would raise ZeroDivisionError, always returns
the ordinary result. -/
theorem c8_no_division_by_zero (content : List Char) (m : ℕ) (s : String)
    (hm : 0 < m) :
    optimizeChk content m s = Except.ok (optimize content m s) := by
  simp only [optimizeChk, optimize]
  by_cases hc : estimateTokens content ≤ m
  · simp [hc]
  · simp only [hc, if_false]
    cases hE : (if s = "smart" then errAttempt content m (estimateTokens content) else none) with
    | some r => rfl
    | none => exact headTailResultChk_ok content m (estimateTokens content)

/-- Witness for C8 on the empty content (chars_per_line would be 0). -/
theorem c8_no_division_by_zero_witness :
    optimizeChk [] 5 "smart" = Except.ok (optimize [] 5 "smart") :=
  c8_no_division_by_zero [] 5 "smart" (by decide)

/-! ### Matcher theorems -/

theorem getD_mem_of_lt (l : List (List Char)) (j : ℕ) (h : j < l.length) :
    l.getD j [] ∈ l := by
  rw [List.getD_eq_getElem?_getD, List.getElem?_eq_getElem h]
  exact List.getElem_mem h

theorem kept_length_le (pats : List Pat) (cb ca : ℕ) (lines : List (List Char))
    (f : ℕ → List Char) :
    (((matchedIdxSet pats cb ca lines).sort (· ≤ ·)).map f).length ≤ lines.length := by
  rw [List.length_map, Finset.length_sort]
  calc (matchedIdxSet pats cb ca lines).card
  _ ≤ (Finset.range lines.length).card :=
      Finset.card_le_card (matchedIdxSet_subset_range pats cb ca lines)
  _ = lines.length := Finset.card_range _

/-- C7: for every content, optional max_lines and configuration,
filtered_lines never exceeds total_lines. -/
theorem c7_filtered_le_total (pats : List Pat) (cb ca : ℕ) (content : List Char)
    (ml : Option ℕ) :
    (filterLog pats cb ca content ml).filtered_lines ≤
      (filterLog pats cb ca content ml).total_lines := by
  have hkept := kept_length_le pats cb ca (splitNl content)
    (fun i => (splitNl content).getD i [])
  simp only [filterLog]
  split
  · split
    · simp only [List.length_take]
      omega
    · simp
  · split
    · simp only []
      omega
  -- main branch
    · split
      · simp only [List.length_take]
        omega
      · exact hkept

/-- C5: when patterns are configured but no line matches any of them,
filter_log returns the head sample of min(100, total) lines, with
matched_lines = 0, truncated exactly when the sample is shorter than the
file, and nonempty content for nonempty input. -/
theorem c5_no_match_head_sample (pats : List Pat) (cb ca : ℕ) (content : List Char)
    (ml : Option ℕ) (hp : pats.isEmpty = false)
    (hnm : (splitNl content).all (fun l => pats.all (fun p => !(p.test l))) = true) :
    filterLog pats cb ca content ml =
      ⟨joinNl ((splitNl content).take (min 100 (splitNl content).length)), 0,
        (splitNl content).length, min 100 (splitNl content).length,
        decide (min 100 (splitNl content).length < (splitNl content).length), []⟩ ∧
    (content ≠ [] → (filterLog pats cb ca content ml).content ≠ []) := by
  have hnm' : ∀ j < (splitNl content).length,
      (firstMatch pats ((splitNl content).getD j [])).isSome = false := by
    intro j hj
    rw [Bool.eq_false_iff]
    intro hsome
    obtain ⟨p, hpmem, hptest⟩ := List.find?_isSome.mp hsome
    have hl := List.all_eq_true.mp hnm _ (getD_mem_of_lt _ j hj)
    have := List.all_eq_true.mp hl p hpmem
    rw [List.getD_eq_getElem?_getD] at hptest
    simp [hptest] at this
  have hempty : matchedIdxSet pats cb ca (splitNl content) = ∅ := by
    apply Finset.eq_empty_of_forall_not_mem
    intro x hx
    obtain ⟨j, hj, hsome, _, _⟩ := (mem_matchedIdxSet pats cb ca (splitNl content) x).mp hx
    rw [hnm' j hj] at hsome
    exact absurd hsome (by simp)
  have hmain : filterLog pats cb ca content ml =
      ⟨joinNl ((splitNl content).take (min 100 (splitNl content).length)), 0,
        (splitNl content).length, min 100 (splitNl content).length,
        decide (min 100 (splitNl content).length < (splitNl content).length), []⟩ := by
    simp [filterLog, hp, hempty]
  refine ⟨hmain, fun hcne => ?_⟩
  have hne2 : joinNl ((splitNl content).take (min 100 (splitNl content).length)) ≠ [] := by
    cases hl : splitNl content with
    | nil => exact absurd hl (splitNl_ne_nil content)
    | cons a t =>
      cases t with
      | nil =>
        -- a single line: the sample is the whole file, whose join is content
        have hca : content = a := by
          have h2 := joinNl_splitNl content
          rw [hl] at h2
          exact h2.symm
        have hmin : min 100 ([a] : List (List Char)).length = 1 := by
          simp only [List.length_cons, List.length_nil]
          omega
        rw [hmin]
        simp only [List.take_succ_cons, List.take_zero]
        rw [show joinNl [a] = a from rfl, ← hca]
        exact hcne
      | cons b t' =>
        -- at least two lines: the sample keeps at least two, so the join
        -- contains the separator
        have hmin : min 100 (a :: b :: t').length = min 98 t'.length + 2 := by
          simp only [List.length_cons]
          omega
        rw [hmin]
        simp only [List.take_succ_cons]
        exact joinNl_ne_nil_of_two _ _ _
  rw [hmain]
  exact hne2

/-- Witness for C5 on a five-line input with a pattern that matches nothing:
the whole file comes back as the sample, untruncated and nonempty. -/
theorem c5_no_match_head_sample_witness :
    (filterLog [⟨"z".toList, fun l => l.any (· = 'z')⟩] 5 5 "a\nb\nc\nd\nf".toList none =
      ⟨joinNl ((splitNl "a\nb\nc\nd\nf".toList).take
          (min 100 (splitNl "a\nb\nc\nd\nf".toList).length)), 0,
        (splitNl "a\nb\nc\nd\nf".toList).length,
        min 100 (splitNl "a\nb\nc\nd\nf".toList).length,
        decide (min 100 (splitNl "a\nb\nc\nd\nf".toList).length <
          (splitNl "a\nb\nc\nd\nf".toList).length), []⟩) ∧
    ("a\nb\nc\nd\nf".toList ≠ [] →
      (filterLog [⟨"z".toList, fun l => l.any (· = 'z')⟩] 5 5
        "a\nb\nc\nd\nf".toList none).content ≠ []) :=
  c5_no_match_head_sample [⟨"z".toList, fun l => l.any (· = 'z')⟩] 5 5
    "a\nb\nc\nd\nf".toList none (by decide) (by decide)

/-- C3: with at least one configured pattern, at least one matching line and
max_lines unset, the content returned by filter_log consists exactly of the
lines whose indices lie in the union of the clamped context windows, in
strictly ascending original order, each exactly once. -/
theorem c3_kept_lines_are_clamped_window_union (pats : List Pat) (cb ca : ℕ)
    (content : List Char) (hp : pats.isEmpty = false)
    (hm : (splitNl content).any (fun l => pats.any (fun p => p.test l)) = true) :
    (filterLog pats cb ca content none).content =
      joinNl ((specKeptIndices pats cb ca (splitNl content)).map
        (fun i => (splitNl content).getD i [])) ∧
    List.Sorted (· < ·) (specKeptIndices pats cb ca (splitNl content)) ∧
    (specKeptIndices pats cb ca (splitNl content)).Nodup := by
  set lines := splitNl content with hlines
  -- a matching line exists, so the matched-index set is nonempty
  have hne : matchedIdxSet pats cb ca lines ≠ ∅ := by
    obtain ⟨l, hlmem, hlany⟩ := List.any_eq_true.mp hm
    obtain ⟨j, hj, hjl⟩ := List.mem_iff_getElem.mp hlmem
    have hgd : lines.getD j [] = l := by
      rw [List.getD_eq_getElem?_getD, List.getElem?_eq_getElem hj]
      exact hjl
    obtain ⟨p, hp2, hptest⟩ := List.any_eq_true.mp hlany
    have hsome : (firstMatch pats (lines.getD j [])).isSome := by
      apply List.find?_isSome.mpr
      exact ⟨p, hp2, by rw [hgd]; exact hptest⟩
    intro habs
    have := self_mem_matchedIdxSet pats cb ca lines j hj hsome
    rw [habs] at this
    exact absurd this (Finset.not_mem_empty j)
  -- the sorted matched-index set is the filtered range of the spec predicate
  have hsort : (matchedIdxSet pats cb ca lines).sort (· ≤ ·) =
      specKeptIndices pats cb ca lines := by
    rw [sort_eq_filter_range (matchedIdxSet pats cb ca lines) lines.length
      (fun i hi => Finset.mem_range.mp (matchedIdxSet_subset_range pats cb ca lines hi))]
    apply List.filter_congr
    intro i hi
    have hilt : i < lines.length := List.mem_range.mp hi
    apply Bool.eq_iff_iff.mpr
    rw [decide_eq_true_eq, mem_matchedIdxSet]
    simp only [List.any_eq_true, Bool.and_eq_true, decide_eq_true_eq, List.mem_range]
    constructor
    · rintro ⟨j, hj, hsome, h1, h2⟩
      rw [Nat.lt_min] at h2
      obtain ⟨p, hpmem, hptest⟩ := List.find?_isSome.mp hsome
      exact ⟨j, hj, ⟨⟨p, hpmem, hptest⟩, h1⟩, by omega⟩
    · rintro ⟨j, hj, ⟨⟨p, hpmem, hptest⟩, h1⟩, h2⟩
      refine ⟨j, hj, List.find?_isSome.mpr ⟨p, hpmem, hptest⟩, h1, ?_⟩
      rw [Nat.lt_min]
      exact ⟨hilt, by omega⟩
  refine ⟨?_, ?_, ?_⟩
  · have hmain : (filterLog pats cb ca content none).content =
        joinNl (((matchedIdxSet pats cb ca lines).sort (· ≤ ·)).map
          (fun i => lines.getD i [])) := by
      simp [filterLog, hp, hne, ← hlines]
    rw [hmain, hsort]
  · exact List.Pairwise.filter _ (List.pairwise_lt_range lines.length)
  · exact List.Nodup.filter _ (List.nodup_range lines.length)

/-- Witness for C3: spec scenario 2 — 20 lines, a pattern matching only line
15 (1-based), context 2/2; the kept lines are 13 to 17. -/
theorem c3_kept_lines_are_clamped_window_union_witness :
    (filterLog [⟨"err".toList, fun l => isInfixL "err".toList l⟩] 2 2
      "x\nx\nx\nx\nx\nx\nx\nx\nx\nx\nx\nx\nx\nx\nerr\nx\nx\nx\nx\nx".toList none).content =
      joinNl ((specKeptIndices [⟨"err".toList, fun l => isInfixL "err".toList l⟩] 2 2
        (splitNl "x\nx\nx\nx\nx\nx\nx\nx\nx\nx\nx\nx\nx\nx\nerr\nx\nx\nx\nx\nx".toList)).map
        (fun i => (splitNl "x\nx\nx\nx\nx\nx\nx\nx\nx\nx\nx\nx\nx\nx\nerr\nx\nx\nx\nx\nx".toList).getD i [])) ∧
    List.Sorted (· < ·) (specKeptIndices [⟨"err".toList, fun l => isInfixL "err".toList l⟩] 2 2
      (splitNl "x\nx\nx\nx\nx\nx\nx\nx\nx\nx\nx\nx\nx\nx\nerr\nx\nx\nx\nx\nx".toList)) ∧
    (specKeptIndices [⟨"err".toList, fun l => isInfixL "err".toList l⟩] 2 2
      (splitNl "x\nx\nx\nx\nx\nx\nx\nx\nx\nx\nx\nx\nx\nx\nerr\nx\nx\nx\nx\nx".toList)).Nodup :=
  c3_kept_lines_are_clamped_window_union
    [⟨"err".toList, fun l => isInfixL "err".toList l⟩] 2 2
    "x\nx\nx\nx\nx\nx\nx\nx\nx\nx\nx\nx\nx\nx\nerr\nx\nx\nx\nx\nx".toList
    (by decide) (by decide)

theorem length_filterMap_isSome {α β : Type} (l : List α) (f : α → Option β) :
    (l.filterMap f).length = (l.filter (fun x => (f x).isSome)).length := by
  induction l with
  | nil => rfl
  | cons x t ih =>
    cases h : f x with
    | none => simp [List.filterMap_cons, List.filter_cons, h, ih]
    | some y => simp [List.filterMap_cons, List.filter_cons, h, ih]

theorem filterMap_const_map {α β γ : Type} (l : List α) (g : α → Option β) (h : α → γ) :
    l.filterMap (fun a => (g a).map (fun _ => h a)) =
      (l.filter (fun a => (g a).isSome)).map h := by
  induction l with
  | nil => rfl
  | cons a t ih =>
    cases hg : g a with
    | none => simp [List.filterMap_cons, List.filter_cons, hg, ih]
    | some b => simp [List.filterMap_cons, List.filter_cons, hg, ih]

theorem matchesFull_length (pats : List Pat) (lines : List (List Char)) :
    (matchesFull pats lines).length =
      ((List.range lines.length).filter
        (fun i => (firstMatch pats (lines.getD i [])).isSome)).length := by
  rw [matchesFull, length_filterMap_isSome]
  congr 1
  apply List.filter_congr
  intro a _
  cases firstMatch pats (lines.getD a []) <;> rfl

theorem matchesFull_eq_nil (pats : List Pat) (lines : List (List Char))
    (h : ∀ j < lines.length, (firstMatch pats (lines.getD j [])).isSome = false) :
    matchesFull pats lines = [] := by
  rw [matchesFull]
  apply List.filterMap_eq_nil_iff.mpr
  intro a ha
  have hh := h a (List.mem_range.mp ha)
  cases hfm : firstMatch pats (lines.getD a []) with
  | none => rfl
  | some p => rw [hfm] at hh; exact absurd hh (by simp)

/-- In both kept branches of filter_log (with or without the max_lines
truncation) the match metadata is the full list's length and its first 20
records. -/
theorem filterLog_matched_fields (pats : List Pat) (cb ca : ℕ) (content : List Char)
    (ml : Option ℕ) (hp : pats.isEmpty = false)
    (hms : matchedIdxSet pats cb ca (splitNl content) ≠ ∅) :
    (filterLog pats cb ca content ml).matched_lines =
      (matchesFull pats (splitNl content)).length ∧
    (filterLog pats cb ca content ml).matchList =
      (matchesFull pats (splitNl content)).take 20 := by
  simp only [filterLog, hp, Bool.false_eq_true, if_false]
  rw [if_neg hms]
  split
  · exact ⟨rfl, rfl⟩
  · exact ⟨rfl, rfl⟩

theorem filterLog_no_match_fields (pats : List Pat) (cb ca : ℕ) (content : List Char)
    (ml : Option ℕ) (hp : pats.isEmpty = false)
    (hms : matchedIdxSet pats cb ca (splitNl content) = ∅) :
    (filterLog pats cb ca content ml).matched_lines = 0 ∧
    (filterLog pats cb ca content ml).matchList = [] := by
  simp only [filterLog, hp, Bool.false_eq_true, if_false]
  rw [if_pos hms]
  exact ⟨rfl, rfl⟩

/-- C6: with patterns configured, matched_lines counts exactly the lines on
which some pattern matches — one record per matching line, recorded for the
first matching pattern in configuration order, and not capped at 20 (only
the matches metadata list is truncated to its first 20 records). -/
theorem c6_first_pattern_wins_uncapped_count (pats : List Pat) (cb ca : ℕ)
    (content : List Char) (ml : Option ℕ) (hp : pats.isEmpty = false) :
    (filterLog pats cb ca content ml).matched_lines =
      ((List.range (splitNl content).length).filter
        (fun i => (firstMatch pats ((splitNl content).getD i [])).isSome)).length ∧
    (filterLog pats cb ca content ml).matchList =
      (matchesFull pats (splitNl content)).take 20 ∧
    ((matchesFull pats (splitNl content)).map (fun mr => mr.line_number)).Nodup ∧
    (∀ mr ∈ matchesFull pats (splitNl content), ∃ p,
      firstMatch pats mr.line = some p ∧ mr.pattern = p.src ∧
        mr.line = (splitNl content).getD (mr.line_number - 1) []) := by
  have hnone_of : matchedIdxSet pats cb ca (splitNl content) = ∅ →
      ∀ j < (splitNl content).length,
        (firstMatch pats ((splitNl content).getD j [])).isSome = false := by
    intro hms j hj
    rw [Bool.eq_false_iff]
    intro hsome
    have := self_mem_matchedIdxSet pats cb ca (splitNl content) j hj hsome
    rw [hms] at this
    exact absurd this (Finset.not_mem_empty j)
  refine ⟨?_, ?_, ?_, ?_⟩
  -- matched_lines = number of matching lines
  · by_cases hms : matchedIdxSet pats cb ca (splitNl content) = ∅
    · have hfe : ((List.range (splitNl content).length).filter
          (fun i => (firstMatch pats ((splitNl content).getD i [])).isSome)) = [] :=
        List.filter_eq_nil_iff.mpr (fun a ha => by
          rw [hnone_of hms a (List.mem_range.mp ha)]; simp)
      rw [(filterLog_no_match_fields pats cb ca content ml hp hms).1, hfe]
      rfl
    · rw [← matchesFull_length]
      exact (filterLog_matched_fields pats cb ca content ml hp hms).1
  -- the returned matches metadata is the first 20 records
  · by_cases hms : matchedIdxSet pats cb ca (splitNl content) = ∅
    · rw [matchesFull_eq_nil pats (splitNl content) (hnone_of hms)]
      exact (filterLog_no_match_fields pats cb ca content ml hp hms).2
    · exact (filterLog_matched_fields pats cb ca content ml hp hms).2
  -- one record per line: the recorded line numbers are distinct
  · have hmap : (matchesFull pats (splitNl content)).map (fun mr => mr.line_number) =
        (((List.range (splitNl content).length).filter
          (fun i => (firstMatch pats ((splitNl content).getD i [])).isSome)).map (· + 1)) := by
      rw [matchesFull, List.map_filterMap, ← filterMap_const_map]
      apply List.filterMap_congr
      intro a _
      rw [Option.map_map]
      rfl
    rw [hmap]
    exact List.Nodup.map (add_left_injective 1)
      (List.Nodup.filter _ (List.nodup_range _))
  -- each record is for its line's first matching pattern
  · intro mr hmr
    rw [matchesFull] at hmr
    obtain ⟨i, hir, hmap⟩ := List.mem_filterMap.mp hmr
    obtain ⟨p, hfp, hrec⟩ := Option.map_eq_some'.mp hmap
    subst hrec
    exact ⟨p, hfp, rfl, by simp⟩

/-- Witness for C6 on a 21-line input every line of which matches, showing
matched_lines = 21 while the metadata list is capped at 20. -/
theorem c6_first_pattern_wins_uncapped_count_witness :
    ((filterLog [⟨"e".toList, fun l => l.any (· = 'e')⟩] 1 1
        (List.intercalate ['\n'] (List.replicate 21 ['e'])) none).matched_lines =
      ((List.range (splitNl (List.intercalate ['\n'] (List.replicate 21 ['e']))).length).filter
        (fun i => (firstMatch [⟨"e".toList, fun l => l.any (· = 'e')⟩]
          ((splitNl (List.intercalate ['\n'] (List.replicate 21 ['e']))).getD i [])).isSome)).length ∧
    (filterLog [⟨"e".toList, fun l => l.any (· = 'e')⟩] 1 1
        (List.intercalate ['\n'] (List.replicate 21 ['e'])) none).matchList =
      (matchesFull [⟨"e".toList, fun l => l.any (· = 'e')⟩]
        (splitNl (List.intercalate ['\n'] (List.replicate 21 ['e'])))).take 20 ∧
    ((matchesFull [⟨"e".toList, fun l => l.any (· = 'e')⟩]
        (splitNl (List.intercalate ['\n'] (List.replicate 21 ['e'])))).map
      (fun mr => mr.line_number)).Nodup ∧
    (∀ mr ∈ matchesFull [⟨"e".toList, fun l => l.any (· = 'e')⟩]
        (splitNl (List.intercalate ['\n'] (List.replicate 21 ['e']))), ∃ p,
      firstMatch [⟨"e".toList, fun l => l.any (· = 'e')⟩] mr.line = some p ∧
        mr.pattern = p.src ∧
        mr.line = (splitNl (List.intercalate ['\n'] (List.replicate 21 ['e']))).getD
          (mr.line_number - 1) [])) ∧
    (filterLog [⟨"e".toList, fun l => l.any (· = 'e')⟩] 1 1
      (List.intercalate ['\n'] (List.replicate 21 ['e'])) none).matched_lines = 21 :=
  ⟨c6_first_pattern_wins_uncapped_count [⟨"e".toList, fun l => l.any (· = 'e')⟩] 1 1
      (List.intercalate ['\n'] (List.replicate 21 ['e'])) none (by decide),
    by decide⟩

/-- C4: the first two steps of the smart strategy.  Within budget the input
is returned unchanged and unoptimized with no strategy; over budget, when the
extractor yields sections whose separator-joined text fits the budget, exactly
that joined text is returned with strategy error_extraction and final_tokens
recomputed as len(returned content) // 4. -/
theorem c4_smart_first_two_steps (content : List Char) (m : ℕ) (hm : 0 < m) :
    (estimateTokens content ≤ m →
      optimize content m "smart" =
        ⟨content, estimateTokens content, estimateTokens content, false,
          none, none, none, none⟩) ∧
    (¬ estimateTokens content ≤ m →
      (extractErrorSections content).isEmpty = false →
      estimateTokens (List.intercalate sepSection
        ((extractErrorSections content).map (·.content))) ≤ m →
      (optimize content m "smart" =
        ⟨List.intercalate sepSection ((extractErrorSections content).map (·.content)),
          estimateTokens content,
          estimateTokens (List.intercalate sepSection
            ((extractErrorSections content).map (·.content))),
          true, some "error_extraction", some (extractErrorSections content).length,
          none, none⟩ ∧
        (optimize content m "smart").final_tokens =
          (optimize content m "smart").content.length / 4)) := by
  constructor
  · intro hle
    simp [optimize, hle]
  · intro hgt hne hfit
    have hE : errAttempt content m (estimateTokens content) =
        some ⟨List.intercalate sepSection ((extractErrorSections content).map (·.content)),
          estimateTokens content,
          estimateTokens (List.intercalate sepSection
            ((extractErrorSections content).map (·.content))),
          true, some "error_extraction", some (extractErrorSections content).length,
          none, none⟩ := by
      simp [errAttempt, hne, hfit]
    have hopt : optimize content m "smart" =
        ⟨List.intercalate sepSection ((extractErrorSections content).map (·.content)),
          estimateTokens content,
          estimateTokens (List.intercalate sepSection
            ((extractErrorSections content).map (·.content))),
          true, some "error_extraction", some (extractErrorSections content).length,
          none, none⟩ := by
      simp only [optimize]
      rw [if_neg hgt]
      simp [hE]
    exact ⟨hopt, by rw [hopt]; rfl⟩

/-- Witness for C4 on an input over budget whose single error section fits. -/
theorem c4_smart_first_two_steps_witness :
    optimize ("fatal: Y\n\n".toList ++ List.replicate 40 'q') 3 "smart" =
      ⟨List.intercalate sepSection
        ((extractErrorSections ("fatal: Y\n\n".toList ++ List.replicate 40 'q')).map (·.content)),
        estimateTokens ("fatal: Y\n\n".toList ++ List.replicate 40 'q'),
        estimateTokens (List.intercalate sepSection
          ((extractErrorSections ("fatal: Y\n\n".toList ++ List.replicate 40 'q')).map (·.content))),
        true, some "error_extraction",
        some (extractErrorSections ("fatal: Y\n\n".toList ++ List.replicate 40 'q')).length,
        none, none⟩ ∧
    (optimize ("fatal: Y\n\n".toList ++ List.replicate 40 'q') 3 "smart").final_tokens =
      (optimize ("fatal: Y\n\n".toList ++ List.replicate 40 'q') 3 "smart").content.length / 4 :=
  (c4_smart_first_two_steps ("fatal: Y\n\n".toList ++ List.replicate 40 'q') 3
    (by decide)).2 (by decide) (by decide) (by decide)

theorem compilePats_error (rc : String → Option (List Char → Bool))
    (pats : List String) (hbad : ∃ p ∈ pats, rc p = none) :
    ∃ p, pats.find? (fun q => (rc q).isNone) = some p ∧
      compilePats rc pats = Except.error p := by
  induction pats with
  | nil => simp at hbad
  | cons a t ih =>
    by_cases ha : rc a = none
    · refine ⟨a, ?_, ?_⟩
      · exact List.find?_cons_of_pos _ (by simp [ha])
      · simp [compilePats, ha]
    · obtain ⟨q, hq, hqnone⟩ := hbad
      rcases List.mem_cons.mp hq with rfl | hqt
      · exact absurd hqnone ha
      · obtain ⟨p, hfind, hmap⟩ := ih ⟨q, hqt, hqnone⟩
        refine ⟨p, ?_, ?_⟩
        · rw [List.find?_cons_of_neg _ (by simp [Option.isNone_iff_eq_none, ha]), hfind]
        · cases hrc : rc a with
          | none => exact absurd hrc ha
          | some tf => simp [compilePats, hrc, hmap, Except.map]

/-- C9: a malformed regular-expression pattern in the configuration makes
construction fail fast with an error identifying the first offending pattern
string, before any filtering can happen; patterns are never silently
dropped. -/
theorem c9_invalid_pattern_fails_fast (rc : String → Option (List Char → Bool))
    (keywords patterns : List String) (cs : Bool)
    (hbad : ∃ p ∈ patterns, rc p = none) :
    ∃ p, patterns.find? (fun q => (rc q).isNone) = some p ∧
      initFilter rc keywords patterns cs = Except.error p := by
  obtain ⟨p, hfind, hmap⟩ := compilePats_error rc patterns hbad
  refine ⟨p, hfind, ?_⟩
  simp [initFilter, hmap, Bind.bind, Except.bind]

/-- Witness for C9 with a concrete engine that rejects the pattern "(". -/
theorem c9_invalid_pattern_fails_fast_witness :
    ∃ p, (["ok", "("] : List String).find?
        (fun q => ((fun s => if s = "(" then none
          else some (fun _ => false)) q : Option (List Char → Bool)).isNone) = some p ∧
      initFilter (fun s => if s = "(" then none else some (fun _ => false))
        ["kw"] ["ok", "("] false = Except.error p :=
  c9_invalid_pattern_fails_fast (fun s => if s = "(" then none else some (fun _ => false))
    ["kw"] ["ok", "("] false ⟨"(", by simp, by simp⟩

/-! ## The extractor's end_line bookkeeping (claim C10)

A raw section is closed in one of three ways: a later error-marker line
(appended with no end_line), a blank line (end_line = the 0-based index of
the blank, i.e. the 1-based number of the section's last line), or end of
input (end_line = the total line count, again the 1-based number of the last
line).  The following invariants track that a section's lines are exactly
the consecutive original lines starting at start_line, which pins down the
line that closed it. -/

theorem drop_cons_facts (lines : List (List Char)) (idx : ℕ) (l : List Char)
    (rest : List (List Char)) (h : lines.drop idx = l :: rest) :
    lines.getD idx [] = l ∧ rest = lines.drop (idx + 1) ∧ idx < lines.length := by
  have hlt : idx < lines.length := by
    by_contra hge
    rw [List.drop_eq_nil_iff.mpr (by omega)] at h
    exact absurd h (by simp)
  refine ⟨?_, ?_, hlt⟩
  · have h0 : (lines.drop idx)[0]? = some l := by rw [h]; simp
    rw [List.getElem?_drop] at h0
    rw [List.getD_eq_getElem?_getD]
    simp only [Nat.add_zero] at h0
    rw [h0]
    rfl
  · rw [← List.tail_drop, h]
    rfl

theorem slice_length (lines : List (List Char)) (a k : ℕ) (h : a + k ≤ lines.length) :
    ((lines.drop a).take k).length = k := by
  rw [List.length_take, List.length_drop]
  omega

theorem slice_snoc (lines : List (List Char)) (a k : ℕ) (l : List Char)
    (hlt : a + k < lines.length) (hl : lines.getD (a + k) [] = l) :
    (lines.drop a).take k ++ [l] = (lines.drop a).take (k + 1) := by
  rw [List.take_succ, List.getElem?_drop]
  have h1 : lines[a + k]? = some l := by
    rw [List.getElem?_eq_getElem hlt]
    rw [List.getD_eq_getElem?_getD, List.getElem?_eq_getElem hlt] at hl
    simpa using hl
  rw [h1]
  rfl

/-- A section closed with end_line = idx whose current-section invariant held
at idx, at a non-marker line (or at end of input), is a good emitted
section. -/
theorem secGood_close (lines : List (List Char)) (idx : ℕ) (c : RawSection)
    (hc : CurGood lines idx c)
    (hno : idx < lines.length → errorStartTest (lines.getD idx []) = false) :
    SecGood lines { c with endL := some idx } := by
  obtain ⟨h1, h2, h3, h4, h5, h6⟩ := hc
  have hlnslen : c.lns.length = idx - (c.start_line - 1) := by
    rw [h5]
    exact slice_length lines _ _ (by omega)
  refine ⟨h1, h6, ?_, ?_, ?_⟩
  · show c.start_line - 1 + c.lns.length ≤ lines.length
    omega
  · intro habs
    simp at habs
  · intro e he
    simp only [Option.some_inj] at he
    subst he
    constructor
    · show idx = c.start_line - 1 + c.lns.length
      omega
    · exact hno

/-- A section closed by a new marker line at index idx (end_line left unset)
whose current-section invariant held at idx is a good emitted section. -/
theorem secGood_marker_close (lines : List (List Char)) (idx : ℕ) (c : RawSection)
    (hc : CurGood lines idx c) (hidx : idx < lines.length)
    (hmk : errorStartTest (lines.getD idx []) = true) :
    SecGood lines c := by
  obtain ⟨h1, h2, h3, h4, h5, h6⟩ := hc
  have hlnslen : c.lns.length = idx - (c.start_line - 1) := by
    rw [h5]
    exact slice_length lines _ _ (by omega)
  refine ⟨h1, h6, by omega, ?_, ?_⟩
  · intro _
    have hx : c.start_line - 1 + c.lns.length = idx := by omega
    rw [hx]
    exact ⟨hidx, hmk⟩
  · intro e he
    rw [h4] at he
    exact absurd he (by simp)

/-- Appending the line at index idx to an open section keeps the
current-section invariant at idx + 1. -/
theorem curGood_append (lines : List (List Char)) (idx : ℕ) (c : RawSection)
    (l : List Char) (hc : CurGood lines idx c) (hidx : idx < lines.length)
    (hget : lines.getD idx [] = l) :
    CurGood lines (idx + 1) { c with lns := c.lns ++ [l] } := by
  obtain ⟨h1, h2, h3, h4, h5, h6⟩ := hc
  refine ⟨h1, ?_, ?_, h4, ?_, ?_⟩
  · show c.start_line ≤ idx + 1
    omega
  · show idx + 1 ≤ lines.length
    omega
  case refine_4 =>
    show c.lns ++ [l] ≠ []
    simp
  show c.lns ++ [l] =
    (lines.drop (c.start_line - 1)).take ((idx + 1) - (c.start_line - 1))
  have ha : c.start_line - 1 + (idx - (c.start_line - 1)) = idx := by omega
  have hsnoc := slice_snoc lines (c.start_line - 1) (idx - (c.start_line - 1)) l
    (by omega) (by rw [ha]; exact hget)
  have hk : (idx + 1) - (c.start_line - 1) = (idx - (c.start_line - 1)) + 1 := by
    omega
  rw [h5, hk, hsnoc]

theorem exLoop_good (lines : List (List Char)) :
    ∀ (rem : List (List Char)) (idx : ℕ) (cur : Option RawSection) (acc : List RawSection),
      rem = lines.drop idx → idx ≤ lines.length →
      (∀ s ∈ acc, SecGood lines s) →
      (∀ c, cur = some c → CurGood lines idx c) →
      ∀ s ∈ exLoop rem idx cur acc, SecGood lines s := by
  intro rem
  induction rem with
  | nil =>
    intro idx cur acc hrem hidx hacc hcur s hs
    have hlen : lines.length ≤ idx := List.drop_eq_nil_iff.mp hrem.symm
    cases cur with
    | none =>
      simp only [exLoop] at hs
      exact hacc s hs
    | some c =>
      simp only [exLoop] at hs
      rcases List.mem_append.mp hs with hmem | hmem
      · exact hacc s hmem
      · have hs' : s = { c with endL := some idx } := by simpa using hmem
        rw [hs']
        exact secGood_close lines idx c (hcur c rfl) (fun hltl => absurd hltl (by omega))
  | cons l rest ih =>
    intro idx cur acc hrem hidx hacc hcur s hs
    obtain ⟨hget, hrest, hlt⟩ := drop_cons_facts lines idx l rest hrem.symm
    by_cases herr : errorStartTest l = true
    · simp only [exLoop] at hs
      rw [if_pos herr] at hs
      have hacc' : ∀ s' ∈ exAppend cur acc, SecGood lines s' := by
        intro s' hs'
        cases cur with
        | none => exact hacc s' hs'
        | some c =>
          simp only [exAppend] at hs'
          rcases List.mem_append.mp hs' with hmem | hmem
          · exact hacc s' hmem
          · have hs'' : s' = c := by simpa using hmem
            rw [hs'']
            exact secGood_marker_close lines idx c (hcur c rfl) hlt
              (by rw [hget]; exact herr)
      have hcur' : ∀ c', (some ⟨idx + 1, [l], none⟩ : Option RawSection) = some c' →
          CurGood lines (idx + 1) c' := by
        intro c' hc'
        simp only [Option.some_inj] at hc'
        rw [← hc']
        refine ⟨?_, ?_, ?_, rfl, ?_, ?_⟩
        · show 1 ≤ idx + 1
          omega
        · show idx + 1 ≤ idx + 1
          omega
        · show idx + 1 ≤ lines.length
          omega
        · show [l] = (lines.drop (idx + 1 - 1)).take ((idx + 1) - (idx + 1 - 1))
          simp only [Nat.add_sub_cancel, Nat.add_sub_cancel_left]
          rw [← hrem]
          rfl
        · show ([l] : List (List Char)) ≠ []
          simp
      exact ih (idx + 1) (some ⟨idx + 1, [l], none⟩) (exAppend cur acc) hrest
        (by omega) hacc' hcur' s hs
    · simp only [exLoop] at hs
      rw [if_neg herr] at hs
      cases cur with
      | none =>
        exact ih (idx + 1) none acc hrest (by omega) hacc
          (fun c hc => absurd hc (by simp)) s hs
      | some c =>
        have happend := curGood_append lines idx c l (hcur c rfl) hlt hget
        have hcur' : ∀ c', (some { c with lns := c.lns ++ [l] } : Option RawSection) =
            some c' → CurGood lines (idx + 1) c' := by
          intro c' hc'
          simp only [Option.some_inj] at hc'
          rw [← hc']
          exact happend
        -- reduce the match on the known constructor
        have hs2 : s ∈ (if stackTraceTest l = true then
            exLoop rest (idx + 1) (some { c with lns := c.lns ++ [l] }) acc
          else if isNonBlank l = true then
            exLoop rest (idx + 1) (some { c with lns := c.lns ++ [l] }) acc
          else exLoop rest (idx + 1) none (acc ++ [{ c with endL := some idx }])) := hs
        by_cases hst : stackTraceTest l = true
        · rw [if_pos hst] at hs2
          exact ih (idx + 1) (some { c with lns := c.lns ++ [l] }) acc hrest (by omega)
            hacc hcur' s hs2
        · rw [if_neg hst] at hs2
          by_cases hnb : isNonBlank l = true
          · rw [if_pos hnb] at hs2
            exact ih (idx + 1) (some { c with lns := c.lns ++ [l] }) acc hrest (by omega)
              hacc hcur' s hs2
          · rw [if_neg hnb] at hs2
            have hacc' : ∀ s' ∈ acc ++ [{ c with endL := some idx }], SecGood lines s' := by
              intro s' hs'
              rcases List.mem_append.mp hs' with hmem | hmem
              · exact hacc s' hmem
              · have hs'' : s' = { c with endL := some idx } := by simpa using hmem
                rw [hs'']
                exact secGood_close lines idx c (hcur c rfl)
                  (fun _ => by rw [hget]; exact Bool.eq_false_iff.mpr herr)
            exact ih (idx + 1) none (acc ++ [{ c with endL := some idx }]) hrest
              (by omega) hacc' (fun c' hc' => absurd hc' (by simp)) s hs2

/-- C10: a formatted ErrorSection whose following line exists and is itself
an error marker was closed by that marker, so its end_line defaults to its
start_line (even when line_count exceeds 1); in all other cases (closed by a
blank line or by end of input) end_line is the 1-based number of the
section's actual last line, start_line + line_count - 1. -/
theorem c10_marker_closed_end_line (content : List Char) (s : ErrorSection)
    (hs : s ∈ extractErrorSections content) :
    ((s.start_line - 1 + s.line_count < (splitNl content).length ∧
      errorStartTest ((splitNl content).getD (s.start_line - 1 + s.line_count) []) = true) →
      s.end_line = s.start_line) ∧
    ((s.start_line - 1 + s.line_count < (splitNl content).length →
      errorStartTest ((splitNl content).getD (s.start_line - 1 + s.line_count) []) = false) →
      s.end_line = s.start_line + s.line_count - 1) := by
  obtain ⟨rs, hrs, hformat⟩ := List.mem_map.mp hs
  have hgood : SecGood (splitNl content) rs :=
    exLoop_good (splitNl content) (splitNl content) 0 none [] (by rw [List.drop_zero])
      (by omega) (by intro a ha; exact absurd ha (by simp))
      (by intro c hc; exact absurd hc (by simp)) rs hrs
  obtain ⟨h1, h2, h3, h4, h5⟩ := hgood
  subst hformat
  simp only [formatSection]
  cases hend : rs.endL with
  | none =>
    obtain ⟨hlt, hmk⟩ := h4 hend
    constructor
    · intro _
      rfl
    · intro hno
      exact absurd (hno hlt) (by rw [hmk]; simp)
  | some e =>
    obtain ⟨he, hnomk⟩ := h5 e hend
    constructor
    · rintro ⟨hlt2, hmk2⟩
      rw [← he] at hlt2 hmk2
      rw [hnomk hlt2] at hmk2
      exact absurd hmk2 (by simp)
    · intro _
      simp only [Option.getD_some]
      have hlen0 : rs.lns.length ≠ 0 := by
        intro habs
        exact h2 (List.length_eq_zero.mp habs)
      omega

/-- Witness for C10: in "error A\ncont\nerror B" the first section spans two
lines (1-2) but is closed by the marker on line 3, so its end_line is its
start_line 1, not the number 2 of its actual last line; the second section is
closed by end of input and carries its actual last line 3. -/
theorem c10_marker_closed_end_line_witness :
    (⟨1, 1, "error A\ncont".toList, 2⟩ : ErrorSection) ∈
        extractErrorSections "error A\ncont\nerror B".toList ∧
    (((1 - 1 + 2 < (splitNl "error A\ncont\nerror B".toList).length ∧
      errorStartTest ((splitNl "error A\ncont\nerror B".toList).getD (1 - 1 + 2) []) = true) →
      (⟨1, 1, "error A\ncont".toList, 2⟩ : ErrorSection).end_line = 1) ∧
    ((1 - 1 + 2 < (splitNl "error A\ncont\nerror B".toList).length →
      errorStartTest ((splitNl "error A\ncont\nerror B".toList).getD (1 - 1 + 2) []) = false) →
      (⟨1, 1, "error A\ncont".toList, 2⟩ : ErrorSection).end_line = 1 + 2 - 1)) :=
  ⟨by decide, c10_marker_closed_end_line "error A\ncont\nerror B".toList
    ⟨1, 1, "error A\ncont".toList, 2⟩ (by decide)⟩

end LogCore
